import Mathlib

/-!
Verification development for the streaming protocol adapter layer of a desktop
LLM chat backend (Rust sources under src-tauri/src).

Modelling conventions, shared by all definitions below:

* A Rust `String` / `&str` is embedded as `List Char`.  Rust strings are UTF-8
  byte sequences; positions reported by `str::find` are byte indices, but for
  the ASCII search patterns used by this code (`"\n\n"`, `"\n"`, `"data: "`,
  the transcription tags, `"\"items\""`) the first byte-level occurrence is
  exactly the first character-level occurrence, so `take`/`drop` at the
  character index is an exact model of the byte-index slicing performed by the
  source.  Where the source uses `String::len` (a byte count) the model uses
  `utf8Length` (the sum of the characters' UTF-8 sizes), never the character
  count.
* Raw network chunks are modelled as text chunks (the source decodes each
  chunk with `String::from_utf8_lossy` before buffering; the decoding itself
  is outside the modelled layer).
* Effects are made explicit: emitted UI events are collected in a list, the
  turn's `Result` is an `Except`, and loops become explicit recursion.
-/

/-- UTF-8 byte length of a string, modelling Rust `String::len`. -/
def utf8Length (s : List Char) : Nat :=
  s.foldr (fun c n => c.utf8Size + n) 0

/-- Character index of the first occurrence of `pat` in `s`, modelling Rust
`str::find` with an ASCII pattern (for ASCII patterns the first byte-level
match is the first character-level match). -/
def findPattern (pat : List Char) : List Char → Option Nat
  | [] => if pat.isPrefixOf ([] : List Char) then some 0 else none
  | c :: rest =>
    if pat.isPrefixOf (c :: rest) then some 0
    else (findPattern pat rest).map (· + 1)

/-- Fuel-driven worker for `splitFramesOn`.  Each step removes the text before
the first occurrence of `pat` (one complete frame) together with the
delimiter; with fuel at least the buffer length the fuel never runs out
(every step consumes at least one character). -/
def sfgAux (pat : List Char) : Nat → List Char → List (List Char) × List Char
  | 0, buf => ([], buf)
  | fuel + 1, buf =>
    match findPattern pat buf with
    | none => ([], buf)
    | some i =>
      let r := sfgAux pat fuel (buf.drop (i + pat.length))
      (buf.take i :: r.1, r.2)

/-- Repeatedly split complete frames off the front of `buf` at delimiter
`pat`, returning the frames in order and the residual buffer.  This models the
`while let Some(event_end) = buffer.find(DELIM)` loops of `llm.rs` and
`discovery.rs`: `buffer[..event_end]` is a frame and
`buffer[event_end + DELIM.len()..]` stays buffered. -/
def splitFramesOn (pat : List Char) (buf : List Char) : List (List Char) × List Char :=
  sfgAux pat buf.length buf

/-- Anthropic/OpenAI SSE framing: frames are delimited by a blank line
(`buffer.find("\n\n")`, `llm.rs` lines 205-207). -/
def sse_split_frames (buf : List Char) : List (List Char) × List Char :=
  splitFramesOn ['\n', '\n'] buf

/-- Remove every trailing carriage return, modelling
`str::trim_end_matches('\r')` which strips all trailing occurrences. -/
def trimEndCRs (l : List Char) : List Char :=
  (l.reverse.dropWhile (fun c => c == '\r')).reverse

/-- Gemini SSE framing: one frame per line (`buffer.find('\n')`), with
trailing `'\r'` stripped from each extracted line (`llm.rs` lines 522-524);
the residual buffer keeps its raw tail. -/
def gemini_split_lines (buf : List Char) : List (List Char) × List Char :=
  let r := splitFramesOn ['\n'] buf
  (r.1.map trimEndCRs, r.2)

/-- Feed a sequence of chunks through a growing buffer: append each chunk,
split off the complete frames, and keep the residue buffered for the next
chunk.  Returns all frames in order and the final residual buffer. -/
def feedChunks (split : List Char → List (List Char) × List Char)
    (buf : List Char) : List (List Char) → List (List Char) × List Char
  | [] => ([], buf)
  | ch :: rest =>
    let r := split (buf ++ ch)
    let r2 := feedChunks split r.2 rest
    (r.1 ++ r2.1, r2.2)

theorem findPattern_bound {pat : List Char} :
    ∀ {buf : List Char} {i : Nat}, findPattern pat buf = some i →
      i + pat.length ≤ buf.length := by
  intro buf
  induction buf with
  | nil =>
    intro i h
    simp only [findPattern] at h
    split at h
    · rename_i hp
      cases h
      simpa using List.IsPrefix.length_le ((List.isPrefixOf_iff_prefix).1 hp)
    · cases h
  | cons c rest ih =>
    intro i h
    simp only [findPattern] at h
    split at h
    · rename_i hp
      cases h
      simpa using List.IsPrefix.length_le ((List.isPrefixOf_iff_prefix).1 hp)
    · rcases Option.map_eq_some'.1 h with ⟨j, hj, rfl⟩
      have := ih hj
      simp only [List.length_cons]
      omega

theorem findPattern_nil {pat : List Char} (hp : pat ≠ []) :
    findPattern pat ([] : List Char) = none := by
  simp only [findPattern]
  rw [if_neg]
  intro hpre
  exact hp (List.prefix_nil.1 ((List.isPrefixOf_iff_prefix).1 hpre))

/-- The first occurrence of a pattern is unchanged by appending text, as long
as the pattern already occurs: a new occurrence introduced by the appended
text would begin after every occurrence that lies fully inside the prefix. -/
theorem findPattern_append {pat : List Char} :
    ∀ {buf : List Char} {i : Nat}, findPattern pat buf = some i →
      ∀ ext, findPattern pat (buf ++ ext) = some i := by
  intro buf
  induction buf with
  | nil =>
    intro i h ext
    simp only [findPattern] at h
    split at h
    · rename_i hp
      cases h
      have : pat = [] := List.prefix_nil.1 ((List.isPrefixOf_iff_prefix).1 hp)
      subst this
      cases ext with
      | nil => simp [findPattern]
      | cons e es => simp [findPattern, List.isPrefixOf_iff_prefix]
    · cases h
  | cons c rest ih =>
    intro i h ext
    simp only [findPattern] at h ⊢
    split at h
    · rename_i hp
      cases h
      rw [if_pos]
      exact (List.isPrefixOf_iff_prefix).2
        (((List.isPrefixOf_iff_prefix).1 hp).trans (List.prefix_append _ _))
    · rename_i hnp
      rcases Option.map_eq_some'.1 h with ⟨j, hj, rfl⟩
      have hb := findPattern_bound hj
      rw [List.append_eq]
      have hno : ¬ pat.isPrefixOf (c :: (rest ++ ext)) = true := by
        intro hpre
        rw [← List.cons_append] at hpre
        have hpre' := (List.isPrefixOf_iff_prefix).1 hpre
        have hlen := List.IsPrefix.length_le hpre'
        simp only [List.length_append, List.length_cons] at hlen
        -- the pattern would fit inside `c :: rest` because it occurs in `rest`
        have hfit : pat.length ≤ rest.length + 1 := by omega
        have : pat.isPrefixOf (c :: rest) := by
          refine (List.isPrefixOf_iff_prefix).2 ?_
          have htake : pat = (c :: rest).take pat.length := by
            have h1 : pat = ((c :: rest) ++ ext).take pat.length := by
              rcases hpre' with ⟨t, ht⟩
              rw [← ht]
              simp
            rw [List.take_append_of_le_length (by simpa using hfit)] at h1
            exact h1
          rw [htake]
          exact List.take_prefix _ _
        exact hnp this
      rw [if_neg hno, ih hj ext]
      rfl

theorem splitFramesOn_of_none {pat buf : List Char}
    (h : findPattern pat buf = none) : splitFramesOn pat buf = ([], buf) := by
  unfold splitFramesOn
  cases hl : buf.length with
  | zero => simp [sfgAux]
  | succ n => simp [sfgAux, h]

/-- Fuel irrelevance for `sfgAux`: any fuel at least the buffer length
computes the same result. -/
theorem sfgAux_congr {pat : List Char} (hp : pat ≠ []) :
    ∀ (f1 f2 : Nat) (buf : List Char), buf.length ≤ f1 → buf.length ≤ f2 →
      sfgAux pat f1 buf = sfgAux pat f2 buf := by
  intro f1
  induction f1 with
  | zero =>
    intro f2 buf h1 h2
    have : buf = [] := List.length_eq_zero.1 (Nat.le_zero.1 h1)
    subst this
    cases f2 with
    | zero => rfl
    | succ m => simp [sfgAux, findPattern_nil hp]
  | succ n ih =>
    intro f2 buf h1 h2
    cases f2 with
    | zero =>
      have : buf = [] := List.length_eq_zero.1 (Nat.le_zero.1 h2)
      subst this
      simp [sfgAux, findPattern_nil hp]
    | succ m =>
      cases hf : findPattern pat buf with
      | none => simp [sfgAux, hf]
      | some i =>
        have hb := findPattern_bound hf
        have hlen : (buf.drop (i + pat.length)).length ≤ n := by
          simp only [List.length_drop]
          have : 1 ≤ pat.length := by
            cases pat with
            | nil => exact absurd rfl hp
            | cons a l => simp
          omega
        have hlen2 : (buf.drop (i + pat.length)).length ≤ m := by
          simp only [List.length_drop]
          have : 1 ≤ pat.length := by
            cases pat with
            | nil => exact absurd rfl hp
            | cons a l => simp
          omega
        simp only [sfgAux, hf]
        rw [ih n (buf.drop (i + pat.length)) hlen hlen,
            ih m (buf.drop (i + pat.length)) hlen hlen2]

theorem splitFramesOn_of_some {pat buf : List Char} {i : Nat} (hp : pat ≠ [])
    (h : findPattern pat buf = some i) :
    splitFramesOn pat buf =
      (buf.take i :: (splitFramesOn pat (buf.drop (i + pat.length))).1,
       (splitFramesOn pat (buf.drop (i + pat.length))).2) := by
  have hb := findPattern_bound h
  have hpos : 1 ≤ pat.length := by
    cases pat with
    | nil => exact absurd rfl hp
    | cons a l => simp
  unfold splitFramesOn
  cases hl : buf.length with
  | zero =>
    have : buf = [] := List.length_eq_zero.1 hl
    subst this
    rw [findPattern_nil hp] at h
    cases h
  | succ n =>
    simp only [sfgAux, h]
    have hlen : (buf.drop (i + pat.length)).length ≤ n := by
      simp only [List.length_drop]
      omega
    rw [sfgAux_congr hp n (buf.drop (i + pat.length)).length _ hlen le_rfl]

/-- The residual buffer left by `splitFramesOn` contains no further
occurrence of the delimiter. -/
theorem splitFramesOn_residue {pat : List Char} (hp : pat ≠ []) :
    ∀ (n : Nat) (buf : List Char), buf.length ≤ n →
      findPattern pat (splitFramesOn pat buf).2 = none := by
  intro n
  induction n with
  | zero =>
    intro buf h
    have : buf = [] := List.length_eq_zero.1 (Nat.le_zero.1 h)
    subst this
    rw [splitFramesOn_of_none (findPattern_nil hp)]
    exact findPattern_nil hp
  | succ n ih =>
    intro buf h
    cases hf : findPattern pat buf with
    | none =>
      rw [splitFramesOn_of_none hf]
      exact hf
    | some i =>
      rw [splitFramesOn_of_some hp hf]
      have hb := findPattern_bound hf
      have hpos : 1 ≤ pat.length := by
        cases pat with
        | nil => exact absurd rfl hp
        | cons a l => simp
      refine ih (buf.drop (i + pat.length)) ?_
      simp only [List.length_drop]
      omega

/-- Splitting a concatenation: first all frames of the left part are
produced, then splitting resumes on the left residue joined with the right
part.  This is the key algebraic fact behind chunk-boundary independence. -/
theorem splitFramesOn_append {pat : List Char} (hp : pat ≠ []) :
    ∀ (n : Nat) (buf : List Char), buf.length ≤ n → ∀ ext,
      splitFramesOn pat (buf ++ ext) =
        ((splitFramesOn pat buf).1 ++
           (splitFramesOn pat ((splitFramesOn pat buf).2 ++ ext)).1,
         (splitFramesOn pat ((splitFramesOn pat buf).2 ++ ext)).2) := by
  intro n
  induction n with
  | zero =>
    intro buf h ext
    have : buf = [] := List.length_eq_zero.1 (Nat.le_zero.1 h)
    subst this
    rw [splitFramesOn_of_none (findPattern_nil hp)]
    simp
  | succ n ih =>
    intro buf h ext
    cases hf : findPattern pat buf with
    | none =>
      rw [splitFramesOn_of_none hf]
      simp
    | some i =>
      have hb := findPattern_bound hf
      have hpos : 1 ≤ pat.length := by
        cases pat with
        | nil => exact absurd rfl hp
        | cons a l => simp
      rw [splitFramesOn_of_some hp (findPattern_append hf ext),
          splitFramesOn_of_some hp hf]
      have htk : (buf ++ ext).take i = buf.take i :=
        List.take_append_of_le_length (by omega)
      have hdp : (buf ++ ext).drop (i + pat.length) =
          buf.drop (i + pat.length) ++ ext :=
        List.drop_append_of_le_length (by omega)
      have hlen : (buf.drop (i + pat.length)).length ≤ n := by
        simp only [List.length_drop]
        omega
      rw [htk, hdp, ih (buf.drop (i + pat.length)) hlen ext]
      simp

/-- Generic chunk-feeding lemma: if the buffer starts out delimiter-free
(for example empty, or a residue of a previous split), feeding the chunks one
at a time produces exactly the frames of the concatenation. -/
theorem feedChunks_eq_of_residue (pat : List Char) (hp : pat ≠ [])
    (g : List Char → List Char) :
    ∀ (chunks : List (List Char)) (buf : List Char),
      findPattern pat buf = none →
      feedChunks (fun b => ((splitFramesOn pat b).1.map g, (splitFramesOn pat b).2))
          buf chunks =
        ((splitFramesOn pat (buf ++ chunks.flatten)).1.map g,
         (splitFramesOn pat (buf ++ chunks.flatten)).2) := by
  intro chunks
  induction chunks with
  | nil =>
    intro buf hb
    simp only [feedChunks, List.flatten_nil, List.append_nil]
    rw [splitFramesOn_of_none hb]
    simp
  | cons c rest ih =>
    intro buf hb
    simp only [feedChunks, List.flatten_cons]
    have hres : findPattern pat (splitFramesOn pat (buf ++ c)).2 = none :=
      splitFramesOn_residue hp (buf ++ c).length _ le_rfl
    rw [ih _ hres]
    have happ := splitFramesOn_append hp (buf ++ c).length (buf ++ c) le_rfl rest.flatten
    rw [← List.append_assoc, happ]
    simp

/-- C1: SSE frame reassembly is chunk-boundary independent.  For every
partition of a stream into chunks, feeding the chunks one at a time through
the growing-buffer frame decoder (Anthropic/OpenAI: split at `"\n\n"`;
Gemini: split at `"\n"` with trailing `'\r'` stripped from each line) yields
exactly the same ordered frame sequence, and the same residual (partial-frame)
buffer, as decoding the whole stream delivered as one chunk.  In particular a
frame split across two chunks is reassembled, and a chunk holding N complete
frames plus a partial frame yields those N frames with the tail buffered. -/
theorem sse_frame_reassembly_chunk_invariant :
    (∀ chunks : List (List Char),
       feedChunks sse_split_frames [] chunks = sse_split_frames chunks.flatten) ∧
    (∀ chunks : List (List Char),
       feedChunks gemini_split_lines [] chunks = gemini_split_lines chunks.flatten) := by
  constructor
  · intro chunks
    have h := feedChunks_eq_of_residue ['\n', '\n'] (by simp) id chunks []
      (by simp [findPattern])
    simp only [List.map_id] at h
    have hfun : (fun b => ((splitFramesOn ['\n', '\n'] b).1,
        (splitFramesOn ['\n', '\n'] b).2)) = sse_split_frames := by
      funext b
      rfl
    rw [hfun] at h
    rw [h]
    rfl
  · intro chunks
    have h := feedChunks_eq_of_residue ['\n'] (by simp) trimEndCRs chunks []
      (by simp [findPattern])
    have hfun : (fun b => ((splitFramesOn ['\n'] b).1.map trimEndCRs,
        (splitFramesOn ['\n'] b).2)) = gemini_split_lines := by
      funext b
      rfl
    rw [hfun] at h
    rw [h]
    rfl

/-!
A model of the JSON values and the `serde_json` operations this code uses.
The model covers the JSON fragment relevant to the repository's streams:
objects, arrays, strings with the simple escapes, booleans, `null`, and
integer numbers (the streams' numeric fields are token counts and offsets;
fractional/exponent literals and `\u` escapes are outside the model).
Duplicate object keys do not occur in any input considered here.
-/

inductive Json where
  | null : Json
  | bool (b : Bool) : Json
  | num (n : Int) : Json
  | str (s : List Char) : Json
  | arr (elems : List Json) : Json
  | obj (members : List (List Char × Json)) : Json

/-- JSON whitespace (space, tab, line feed, carriage return). -/
def isJsonWs (c : Char) : Bool :=
  c == ' ' || c == '\t' || c == '\n' || c == '\r'

def skipJsonWs (s : List Char) : List Char :=
  s.dropWhile isJsonWs

/-- Decode one escape character of a JSON string literal.  The quote, the
backslash and the slash escape to themselves; backspace is byte 8, form feed
byte 12. -/
def jsonEscapeChar : Char → Option Char
  | 'n' => some '\n'
  | 't' => some '\t'
  | 'r' => some '\r'
  | 'b' => some (Char.ofNat 8)
  | 'f' => some (Char.ofNat 12)
  | other => if other = '"' || other = '\\' || other = '/' then some other else none

/-- Scan a JSON string body (the opening quote already consumed); returns the
decoded text and the remaining input after the closing quote. -/
def scanJsonString : List Char → Option (List Char × List Char)
  | [] => none
  | '"' :: rest => some ([], rest)
  | '\\' :: [] => none
  | '\\' :: e :: rest2 =>
    (jsonEscapeChar e).bind fun ch =>
      (scanJsonString rest2).map fun r => (ch :: r.1, r.2)
  | c :: rest =>
    (scanJsonString rest).map fun r => (c :: r.1, r.2)

def digitsToNat (ds : List Char) : Nat :=
  ds.foldl (fun n c => n * 10 + (c.toNat - 48)) 0

/-- Scan an integer JSON number (optional minus sign, one or more digits). -/
def scanJsonNumber (s : List Char) : Option (Int × List Char) :=
  match s with
  | '-' :: rest =>
    let ds := rest.takeWhile Char.isDigit
    if ds = [] then none else some (-(digitsToNat ds : Int), rest.dropWhile Char.isDigit)
  | _ =>
    let ds := s.takeWhile Char.isDigit
    if ds = [] then none else some ((digitsToNat ds : Int), s.dropWhile Char.isDigit)

/-- The three scanning modes of the recursive-descent JSON scanner: one
value, the member list of an object (opening brace consumed, at least one
member expected), or the element list of an array (opening bracket consumed,
at least one element expected). -/
inductive JScanKind where
  | value : JScanKind
  | members : JScanKind
  | elems : JScanKind

/-- Recursive-descent scan, structurally recursive on `fuel` (any fuel beyond
the input length is sufficient: every recursive call follows the consumption
of at least one input character). -/
def scanJsonCore : Nat → JScanKind → List Char → Option (Json × List Char)
  | 0, _, _ => none
  | fuel + 1, JScanKind.value, s =>
    match skipJsonWs s with
    | [] => none
    | c :: rest =>
      if c == '"' then
        (scanJsonString rest).map fun r => (Json.str r.1, r.2)
      else if c == 't' then
        if ['r', 'u', 'e'].isPrefixOf rest then some (Json.bool true, rest.drop 3) else none
      else if c == 'f' then
        if ['a', 'l', 's', 'e'].isPrefixOf rest then some (Json.bool false, rest.drop 4) else none
      else if c == 'n' then
        if ['u', 'l', 'l'].isPrefixOf rest then some (Json.null, rest.drop 3) else none
      else if c == '{' then
        match skipJsonWs rest with
        | '}' :: rest2 => some (Json.obj [], rest2)
        | _ => scanJsonCore fuel JScanKind.members rest
      else if c == '[' then
        match skipJsonWs rest with
        | ']' :: rest2 => some (Json.arr [], rest2)
        | _ => scanJsonCore fuel JScanKind.elems rest
      else
        (scanJsonNumber (c :: rest)).map fun r => (Json.num r.1, r.2)
  | fuel + 1, JScanKind.members, s =>
    match skipJsonWs s with
    | '"' :: rest =>
      (scanJsonString rest).bind fun k =>
        match skipJsonWs k.2 with
        | ':' :: rest2 =>
          (scanJsonCore fuel JScanKind.value rest2).bind fun v =>
            match skipJsonWs v.2 with
            | ',' :: rest3 =>
              (scanJsonCore fuel JScanKind.members rest3).bind fun tail =>
                match tail.1 with
                | Json.obj ms => some (Json.obj ((k.1, v.1) :: ms), tail.2)
                | _ => none
            | '}' :: rest3 => some (Json.obj [(k.1, v.1)], rest3)
            | _ => none
        | _ => none
    | _ => none
  | fuel + 1, JScanKind.elems, s =>
    (scanJsonCore fuel JScanKind.value s).bind fun v =>
      match skipJsonWs v.2 with
      | ',' :: rest =>
        (scanJsonCore fuel JScanKind.elems rest).bind fun tail =>
          match tail.1 with
          | Json.arr es => some (Json.arr (v.1 :: es), tail.2)
          | _ => none
      | ']' :: rest => some (Json.arr [v.1], rest)
      | _ => none

/-- Parse a complete JSON document, modelling `serde_json::from_str`: one
value, optionally surrounded by whitespace, and nothing else. -/
def parseJsonText (s : List Char) : Option Json :=
  (scanJsonCore (s.length + 1) JScanKind.value s).bind fun r =>
    if skipJsonWs r.2 = [] then some r.1 else none

/-- Model of `serde_json::Value::get`: `Some` only for an object that has the
key. -/
def jGetOpt (j : Json) (k : List Char) : Option Json :=
  match j with
  | Json.obj ms => (ms.find? (fun m => m.1 == k)).map (fun m => m.2)
  | _ => none

/-- Model of `value[key]` indexing, which yields `Null` for a missing key or a
non-object. -/
def jGet (j : Json) (k : List Char) : Json :=
  (jGetOpt j k).getD Json.null

/-- Model of `Value::as_str`. -/
def jAsStr : Json → Option (List Char)
  | Json.str s => some s
  | _ => none

/-- Model of `Value::as_array`. -/
def jAsArr : Json → Option (List Json)
  | Json.arr es => some es
  | _ => none

/-- Model of `Value::as_bool`. -/
def jAsBool : Json → Option Bool
  | Json.bool b => some b
  | _ => none

/-- Model of `Value::as_u64`: only a non-negative integer number. -/
def jAsU64 : Json → Option Nat
  | Json.num n => if 0 ≤ n then some n.toNat else none
  | _ => none

/-!
Incremental JSON-array item extractor (`discovery.rs`).
-/

/-- One discovery result record (`discovery.rs` lines 20-31).  All eight
fields are required by the serde derive (camelCase wire names, no defaults),
so deserializing an object that lacks any of them fails. -/
structure DiscoveryItem where
  title : List Char
  one_liner : List Char
  full_summary : List Char
  relevance_explanation : List Char
  source_url : List Char
  source_domain : List Char
  category : List Char
  relevance_score : Nat
deriving DecidableEq

/-- Model of `serde_json::from_str::<DiscoveryItem>` applied to an already
parsed value: an object supplying all eight camelCase fields with the right
types (`relevanceScore` a non-negative integer fitting in `u32`); unknown
extra fields are ignored, as serde does by default. -/
def deserialize_discovery_item (j : Json) : Option DiscoveryItem :=
  (jGetOpt j "title".data).bind fun j1 => (jAsStr j1).bind fun title =>
  (jGetOpt j "oneLiner".data).bind fun j2 => (jAsStr j2).bind fun one_liner =>
  (jGetOpt j "fullSummary".data).bind fun j3 => (jAsStr j3).bind fun full_summary =>
  (jGetOpt j "relevanceExplanation".data).bind fun j4 => (jAsStr j4).bind fun relevance_explanation =>
  (jGetOpt j "sourceUrl".data).bind fun j5 => (jAsStr j5).bind fun source_url =>
  (jGetOpt j "sourceDomain".data).bind fun j6 => (jAsStr j6).bind fun source_domain =>
  (jGetOpt j "category".data).bind fun j7 => (jAsStr j7).bind fun category =>
  (jGetOpt j "relevanceScore".data).bind fun j8 => (jAsU64 j8).bind fun score =>
  if score < 4294967296 then
    some ⟨title, one_liner, full_summary, relevance_explanation,
          source_url, source_domain, category, score⟩
  else none

/-- ASCII fragment of Rust `char::is_whitespace` (the characters occurring in
the modelled streams). -/
def isRustWs (c : Char) : Bool :=
  c == ' ' || c == '\t' || c == '\n' || c == '\r'

def trimStartWs (l : List Char) : List Char :=
  l.dropWhile isRustWs

def trimEndWs (l : List Char) : List Char :=
  (l.reverse.dropWhile isRustWs).reverse

/-- Model of Rust `str::trim`. -/
def trimWs (l : List Char) : List Char :=
  trimEndWs (trimStartWs l)

/-- `serde_json::from_str::<DiscoveryItem>` on a candidate object text. -/
def parse_discovery_item (s : List Char) : Option DiscoveryItem :=
  (parseJsonText s).bind deserialize_discovery_item

/-- State for incremental JSON parsing (`discovery.rs` lines 57-66). -/
structure JsonParseState where
  found_items_key : Bool
  in_items_array : Bool
  brace_depth : Int
  bracket_depth : Int
  current_item : List Char
  in_string : Bool
  escape_next : Bool
  recent_chars : List Char
deriving DecidableEq

/-- `JsonParseState::new` (`discovery.rs` lines 68-81). -/
def JsonParseState.new : JsonParseState :=
  ⟨false, false, 0, 0, [], false, false, []⟩

/-- The body of the per-character scanner once inside the `"items"` array
(`discovery.rs` lines 109-180): string/escape tracking, brace and bracket
depth, candidate accumulation, and the parse attempt on a closing brace that
returns the depth to zero (a parse failure silently discards the candidate). -/
def jstepBody (st : JsonParseState) (c : Char) : JsonParseState × List DiscoveryItem :=
  let pushIf : List Char := if 0 < st.brace_depth then st.current_item ++ [c] else st.current_item
  if st.escape_next then
    ({ st with escape_next := false, current_item := pushIf }, [])
  else if c == '\\' && st.in_string then
    ({ st with escape_next := true, current_item := pushIf }, [])
  else if c == '"' then
    ({ st with in_string := !st.in_string, current_item := pushIf }, [])
  else if st.in_string then
    ({ st with current_item := pushIf }, [])
  else if c == '{' then
    ({ st with brace_depth := st.brace_depth + 1, current_item := st.current_item ++ [c] }, [])
  else if c == '}' then
    let ci := st.current_item ++ [c]
    let bd := st.brace_depth - 1
    if bd == 0 && !ci.isEmpty then
      match parse_discovery_item (trimWs ci) with
      | some item => ({ st with brace_depth := bd, current_item := [] }, [item])
      | none => ({ st with brace_depth := bd, current_item := [] }, [])
    else
      ({ st with brace_depth := bd, current_item := ci }, [])
  else if c == '[' then
    if 0 < st.brace_depth then
      ({ st with current_item := st.current_item ++ [c], bracket_depth := st.bracket_depth + 1 }, [])
    else (st, [])
  else if c == ']' then
    if 0 < st.brace_depth then
      ({ st with current_item := st.current_item ++ [c], bracket_depth := st.bracket_depth - 1 }, [])
    else ({ st with in_items_array := false }, [])
  else
    ({ st with current_item := pushIf }, [])

/-- One character of `extract_items_from_buffer`'s scan loop (`discovery.rs`
lines 87-181), including the 20-byte look-back window that detects the
`"items"` key followed by its opening bracket. -/
def jstep (st : JsonParseState) (c : Char) : JsonParseState × List DiscoveryItem :=
  if !st.found_items_key then
    let rc0 := st.recent_chars ++ [c]
    let rc := if 20 < utf8Length rc0 then rc0.drop 1 else rc0
    if (findPattern "\"items\"".data rc).isSome &&
       ("[".data.isSuffixOf rc || ": [".data.isSuffixOf rc || ":[".data.isSuffixOf rc) then
      ({ st with recent_chars := rc, found_items_key := true, in_items_array := true }, [])
    else
      -- not yet found: `in_items_array` is still false, so the char is skipped
      ({ st with recent_chars := rc }, [])
  else if !st.in_items_array then
    (st, [])
  else
    jstepBody st c

def jstepFold (acc : List DiscoveryItem × JsonParseState) (c : Char) :
    List DiscoveryItem × JsonParseState :=
  let r := jstep acc.2 c
  (acc.1 ++ r.2, r.1)

/-- `extract_items_from_buffer` (`discovery.rs` lines 84-184): scan the text
character by character, mutating the parse state, and collect every
successfully parsed item in order. -/
def extract_items_from_buffer (buffer : List Char) (state : JsonParseState) :
    List DiscoveryItem × JsonParseState :=
  buffer.foldl jstepFold ([], state)

def chunkFold (acc : List DiscoveryItem × JsonParseState) (ch : List Char) :
    List DiscoveryItem × JsonParseState :=
  let r := extract_items_from_buffer ch acc.2
  (acc.1 ++ r.1, r.2)

/-- Calling `extract_items_from_buffer` once per chunk, threading one
`JsonParseState` through all calls and concatenating the extracted items, as
the discovery event loops do with each incoming delta. -/
def extract_items_across_chunks (chunks : List (List Char)) (state : JsonParseState) :
    List DiscoveryItem × JsonParseState :=
  chunks.foldl chunkFold ([], state)

theorem foldl_jstepFold_front (buf : List Char) :
    ∀ (items : List DiscoveryItem) (st : JsonParseState),
      buf.foldl jstepFold (items, st) =
        (items ++ (buf.foldl jstepFold ([], st)).1, (buf.foldl jstepFold ([], st)).2) := by
  induction buf with
  | nil => intro items st; simp
  | cons c rest ih =>
    intro items st
    simp only [List.foldl_cons]
    rw [ih (jstepFold (items, st) c).1 (jstepFold (items, st) c).2,
        ih (jstepFold ([], st) c).1 (jstepFold ([], st) c).2]
    simp [jstepFold, List.append_assoc]

theorem extract_items_append (a b : List Char) (st : JsonParseState) :
    extract_items_from_buffer (a ++ b) st =
      ((extract_items_from_buffer a st).1 ++
         (extract_items_from_buffer b (extract_items_from_buffer a st).2).1,
       (extract_items_from_buffer b (extract_items_from_buffer a st).2).2) := by
  unfold extract_items_from_buffer
  rw [List.foldl_append,
      foldl_jstepFold_front b (a.foldl jstepFold ([], st)).1 (a.foldl jstepFold ([], st)).2]

/-- C2: the incremental item extractor is chunk-boundary independent.  For
every text and every partition of it into chunks, feeding the chunks one call
at a time (threading one `JsonParseState` through all calls) yields exactly
the same ordered item sequence, and the same final state, as feeding the whole
text in a single call.  This holds unconditionally, with no proviso about
where the boundaries fall. -/
theorem item_extractor_chunk_invariant :
    ∀ (chunks : List (List Char)) (st : JsonParseState),
      extract_items_across_chunks chunks st =
        extract_items_from_buffer chunks.flatten st := by
  intro chunks
  induction chunks with
  | nil => intro st; rfl
  | cons ch rest ih =>
    intro st
    simp only [extract_items_across_chunks, List.foldl_cons, List.flatten_cons]
    have hfront : ∀ (items : List DiscoveryItem) (s : JsonParseState),
        rest.foldl chunkFold (items, s) =
          (items ++ (rest.foldl chunkFold ([], s)).1, (rest.foldl chunkFold ([], s)).2) := by
      clear ih
      induction rest with
      | nil => intro items s; simp
      | cons d ds ihd =>
        intro items s
        simp only [List.foldl_cons]
        rw [ihd (chunkFold (items, s) d).1 (chunkFold (items, s) d).2,
            ihd (chunkFold ([], s) d).1 (chunkFold ([], s) d).2]
        simp [chunkFold, List.append_assoc]
    rw [extract_items_append ch rest.flatten st]
    have := ih (extract_items_from_buffer ch st).2
    simp only [extract_items_across_chunks] at this
    rw [show chunkFold ([], st) ch =
          ((extract_items_from_buffer ch st).1, (extract_items_from_buffer ch st).2) from rfl,
        hfront (extract_items_from_buffer ch st).1 (extract_items_from_buffer ch st).2, this]

/-- Split a text into one-character chunks. -/
def oneCharChunks (s : List Char) : List (List Char) :=
  s.map (fun c => [c])

/-- The document named by the claim: `{"items":[{"a":1},{"a":2}]}`. -/
def c5_bad_input : List Char :=
  "\x7b\"items\":[\x7b\"a\":1\x7d,\x7b\"a\":2\x7d]\x7d".data

/-- Counterexample to C5.  Feeding `{"items":[{"a":1},{"a":2}]}` to the
extractor in 1-character chunks from a fresh `JsonParseState` yields zero
items, not the two items the claim asserts: each candidate `{"a":1}` fails
`serde_json::from_str::<DiscoveryItem>` because the record requires the eight
fields `title` … `relevanceScore` with no serde defaults, and the parse
failure silently discards the candidate (`discovery.rs` lines 153-159). -/
theorem item_extraction_counterexample :
    (extract_items_across_chunks (oneCharChunks c5_bad_input) JsonParseState.new).1 = [] := by
  rfl

def c5_item_text_a : List Char :=
  "\x7b\"title\":\"t\",\"oneLiner\":\"o\",\"fullSummary\":\"f\",\"relevanceExplanation\":\"r\",\"sourceUrl\":\"u\",\"sourceDomain\":\"d\",\"category\":\"c\",\"relevanceScore\":1\x7d".data

def c5_item_text_b : List Char :=
  "\x7b\"title\":\"t2\",\"oneLiner\":\"o2\",\"fullSummary\":\"f2\",\"relevanceExplanation\":\"r2\",\"sourceUrl\":\"u2\",\"sourceDomain\":\"d2\",\"category\":\"c2\",\"relevanceScore\":2\x7d".data

/-- A document whose two array elements are complete `DiscoveryItem` records. -/
def c5_amended_input : List Char :=
  "\x7b\"items\":[".data ++ c5_item_text_a ++ ",".data ++ c5_item_text_b ++ "]\x7d".data

set_option maxRecDepth 100000 in
/-- C5 (amended): the extractor parses each candidate object as a
`DiscoveryItem` record and silently discards candidates that do not match;
for the claimed input `{"items":[{"a":1},{"a":2}]}` it therefore yields zero
items, while for a document whose two array elements are complete
`DiscoveryItem` records, split into 1-character chunks, it yields exactly
those two parsed items in order. -/
theorem item_extraction_amended :
    (extract_items_across_chunks (oneCharChunks c5_amended_input) JsonParseState.new).1 =
      [⟨"t".data, "o".data, "f".data, "r".data, "u".data, "d".data, "c".data, 1⟩,
       ⟨"t2".data, "o2".data, "f2".data, "r2".data, "u2".data, "d2".data, "c2".data, 2⟩] := by
  rfl

/-!
Provider routing (`llm.rs` lines 57-65 and `discovery.rs` lines 187-195).
The source returns the provider tags `"openai"`, `"google"` (the Gemini
provider) and `"anthropic"`.
-/

/-- `get_provider_for_model` in `llm.rs`. -/
def get_provider_for_model (model : List Char) : List Char :=
  if "gpt".data.isPrefixOf model || "o3".data.isPrefixOf model || "o4".data.isPrefixOf model then
    "openai".data
  else if "gemini".data.isPrefixOf model then
    "google".data
  else
    "anthropic".data

/-- `get_provider_for_model` in `discovery.rs` (a verbatim copy). -/
def discovery_get_provider_for_model (model : List Char) : List Char :=
  if "gpt".data.isPrefixOf model || "o3".data.isPrefixOf model || "o4".data.isPrefixOf model then
    "openai".data
  else if "gemini".data.isPrefixOf model then
    "google".data
  else
    "anthropic".data

/-- C10: provider selection is a pure function of the model identifier with
the claimed values on the five named models (OpenAI is the tag `"openai"`,
Gemini the tag `"google"`, Anthropic the default tag `"anthropic"`), and the
copies in `llm.rs` and `discovery.rs` agree on every input. -/
theorem provider_routing :
    get_provider_for_model "gpt-4o".data = "openai".data ∧
    get_provider_for_model "gemini-2.5-pro".data = "google".data ∧
    get_provider_for_model "claude-opus-4".data = "anthropic".data ∧
    get_provider_for_model "o3-mini".data = "openai".data ∧
    get_provider_for_model "unknown-model".data = "anthropic".data ∧
    discovery_get_provider_for_model "gpt-4o".data = "openai".data ∧
    discovery_get_provider_for_model "gemini-2.5-pro".data = "google".data ∧
    discovery_get_provider_for_model "claude-opus-4".data = "anthropic".data ∧
    discovery_get_provider_for_model "o3-mini".data = "openai".data ∧
    discovery_get_provider_for_model "unknown-model".data = "anthropic".data ∧
    ∀ m : List Char, discovery_get_provider_for_model m = get_provider_for_model m := by
  refine ⟨?_, ?_, ?_, ?_, ?_, ?_, ?_, ?_, ?_, ?_, fun m => rfl⟩ <;> rfl

/-!
Anthropic provider (`providers/anthropic.rs`).
-/

/-- Citation from web search results (`providers/anthropic.rs` lines 56-61). -/
structure Citation where
  url : List Char
  title : List Char
  cited_text : List Char
deriving DecidableEq

/-- Inline citation with character position (`providers/anthropic.rs` lines
63-70; the structurally identical type in `providers/gemini.rs` lines 619-626
is converted into this one field by field in `llm.rs`). -/
structure InlineCitation where
  url : List Char
  title : List Char
  cited_text : List Char
  char_offset : Nat
deriving DecidableEq

/-- Parsed SSE events from the Anthropic streaming API
(`providers/anthropic.rs` lines 36-53). -/
inductive AnthropicStreamEvent where
  | ContentBlockStart (block_type : List Char) (content_block : Json)
  | ContentBlockDelta (text : Option (List Char)) (thinking : Option (List Char))
      (citation : Option Citation)
  | ContentBlockStop
  | MessageStop
  | Done
  | Unknown

/-- `parse_sse_event` in `providers/anthropic.rs` (lines 189-258): dispatch on
the literal `[DONE]` line, then on the JSON `type` field; a
`content_block_delta` whose nested delta type is `citations_delta` carries a
citation (requiring both `url` and `title` strings) and no text, any other
delta carries the optional `text`/`thinking` strings and no citation. -/
def anthropic_parse_sse_event (data : List Char) : AnthropicStreamEvent :=
  if data = "[DONE]".data then AnthropicStreamEvent.Done
  else
    match parseJsonText data with
    | none => AnthropicStreamEvent.Unknown
    | some parsed =>
      let event_type := (jAsStr (jGet parsed "type".data)).getD []
      if event_type = "content_block_start".data then
        AnthropicStreamEvent.ContentBlockStart
          ((jAsStr (jGet (jGet parsed "content_block".data) "type".data)).getD [])
          (jGet parsed "content_block".data)
      else if event_type = "content_block_delta".data then
        let delta_type := (jAsStr (jGet (jGet parsed "delta".data) "type".data)).getD []
        if delta_type = "citations_delta".data then
          let cobj := jGet (jGet parsed "delta".data) "citation".data
          let citation :=
            match jAsStr (jGet cobj "url".data), jAsStr (jGet cobj "title".data) with
            | some url, some title =>
              some (Citation.mk url title ((jAsStr (jGet cobj "cited_text".data)).getD []))
            | _, _ => none
          AnthropicStreamEvent.ContentBlockDelta none none citation
        else
          AnthropicStreamEvent.ContentBlockDelta
            (jAsStr (jGet (jGet parsed "delta".data) "text".data))
            (jAsStr (jGet (jGet parsed "delta".data) "thinking".data))
            none
      else if event_type = "content_block_stop".data then AnthropicStreamEvent.ContentBlockStop
      else if event_type = "message_stop".data then AnthropicStreamEvent.MessageStop
      else AnthropicStreamEvent.Unknown

/-!
Gemini provider (`providers/gemini.rs`).
-/

structure WebChunk where
  uri : List Char
  title : List Char
deriving DecidableEq

structure GroundingChunk where
  web : Option WebChunk
deriving DecidableEq

/-- A segment of text with byte offsets (`providers/gemini.rs` lines 100-110). -/
structure GroundingSegment where
  start_index : Nat
  end_index : Nat
  text : List Char
deriving DecidableEq

/-- Links a text segment to its supporting sources (`providers/gemini.rs`
lines 91-98). -/
structure GroundingSupport where
  segment : GroundingSegment
  grounding_chunk_indices : List Nat
deriving DecidableEq

/-- Grounding information from Google Search (`providers/gemini.rs` lines
81-89). -/
structure GroundingInfo where
  web_search_queries : List (List Char)
  grounding_chunks : List GroundingChunk
  grounding_supports : List GroundingSupport
deriving DecidableEq

/-- Parsed SSE events from the Gemini streaming API (`providers/gemini.rs`
lines 66-79). -/
inductive GeminiStreamEvent where
  | TextDelta (text : List Char)
  | ThinkingDelta
  | ResponseComplete
  | GroundingMetadata (metadata : GroundingInfo)
  | Error (message : List Char)
  | Unknown

/-- Whether a candidate part is flagged as thinking content:
`part.get("thought").and_then(|v| v.as_bool()) == Some(true)`. -/
def geminiPartIsThought (p : Json) : Bool :=
  ((jGetOpt p "thought".data).bind jAsBool) == some true

/-- `parse_sse_event` in `providers/gemini.rs` (lines 488-617): no type tag;
inspect structure.  An `error` key wins; then grounding metadata (root level
or nested in the first candidate) provided it yields any queries, chunks or
supports; then the first non-thought text part of the first candidate (else a
thinking marker if only thought parts carry text flags); then `usageMetadata`
marks completion; everything else (including malformed JSON) is `Unknown`. -/
def gemini_parse_sse_event (data : List Char) : GeminiStreamEvent :=
  match parseJsonText data with
  | none => GeminiStreamEvent.Unknown
  | some parsed =>
    match jGetOpt parsed "error".data with
    | some err =>
      GeminiStreamEvent.Error ((jAsStr (jGet err "message".data)).getD "Unknown error".data)
    | none =>
      let grounding_opt :=
        match jGetOpt parsed "groundingMetadata".data with
        | some g => some g
        | none =>
          ((jAsArr (jGet parsed "candidates".data)).bind List.head?).bind
            (fun fc => jGetOpt fc "groundingMetadata".data)
      let groundingEvent :=
        match grounding_opt with
        | none => none
        | some g =>
          let queries := ((jAsArr (jGet g "webSearchQueries".data)).getD []).filterMap jAsStr
          let chunks := ((jAsArr (jGet g "groundingChunks".data)).getD []).filterMap
            (fun ch => (jGetOpt ch "web".data).bind (fun web =>
              (jAsStr (jGet web "uri".data)).map (fun uri =>
                GroundingChunk.mk (some (WebChunk.mk uri
                  ((jAsStr (jGet web "title".data)).getD []))))))
          let supports := ((jAsArr (jGet g "groundingSupports".data)).getD []).filterMap
            (fun sp => (jGetOpt sp "segment".data).map (fun seg =>
              GroundingSupport.mk
                (GroundingSegment.mk
                  ((jAsU64 (jGet seg "startIndex".data)).getD 0)
                  ((jAsU64 (jGet seg "endIndex".data)).getD 0)
                  ((jAsStr (jGet seg "text".data)).getD []))
                (((jAsArr (jGet sp "groundingChunkIndices".data)).getD []).filterMap jAsU64)))
          if queries ≠ [] ∨ chunks ≠ [] ∨ supports ≠ [] then
            some (GeminiStreamEvent.GroundingMetadata (GroundingInfo.mk queries chunks supports))
          else none
      match groundingEvent with
      | some ev => ev
      | none =>
        let parts := (((jAsArr (jGet parsed "candidates".data)).bind List.head?).bind
          (fun fc => jGetOpt fc "content".data)).bind
          (fun content => jAsArr (jGet content "parts".data))
        let textEvent :=
          match parts with
          | some ps =>
            match ps.findSome? (fun p =>
                if geminiPartIsThought p then none
                else jAsStr (jGet p "text".data)) with
            | some t => some (GeminiStreamEvent.TextDelta t)
            | none =>
              if ps.any geminiPartIsThought then some GeminiStreamEvent.ThinkingDelta else none
          | none => none
        match textEvent with
        | some ev => ev
        | none =>
          match jGetOpt parsed "usageMetadata".data with
          | some _ => GeminiStreamEvent.ResponseComplete
          | none => GeminiStreamEvent.Unknown

/-- Convert a byte offset to a character offset
(`providers/gemini.rs` lines 680-686): clamp the byte offset to the text's
byte length, then count the characters of `text[..byte_offset]`.  In the
model the prefix is taken character by character while its UTF-8 size fits;
this agrees with the source exactly when the (clamped) offset falls on a
character boundary, the only case in which the Rust slice is defined (it
panics otherwise), and the case to which the theorem below restricts. -/
def utf8TakeBytes : Nat → List Char → List Char
  | _, [] => []
  | n, c :: rest => if c.utf8Size ≤ n then c :: utf8TakeBytes (n - c.utf8Size) rest else []

def byte_offset_to_char_offset (text : List Char) (byte_offset : Nat) : Nat :=
  let b := min byte_offset (utf8Length text)
  (utf8TakeBytes b text).length

/-- Whether byte position `n` (clamped) is a character boundary of `text`. -/
def is_char_boundary (text : List Char) (n : Nat) : Bool :=
  utf8Length (utf8TakeBytes (min n (utf8Length text)) text) == min n (utf8Length text)

/-- `extract_inline_citations_from_grounding` (`providers/gemini.rs` lines
631-676): with no grounding supports, place one citation per web grounding
chunk at the end of the text (`response_text.chars().count()`); otherwise one
citation per support whose first linked chunk index resolves to a web chunk,
at the character offset converted from the segment's `end_index` byte
offset. -/
def extract_inline_citations_from_grounding (metadata : GroundingInfo)
    (response_text : List Char) : List InlineCitation :=
  if metadata.grounding_supports = [] then
    metadata.grounding_chunks.filterMap (fun chunk =>
      chunk.web.map (fun web =>
        InlineCitation.mk web.uri web.title [] response_text.length))
  else
    metadata.grounding_supports.filterMap (fun support =>
      support.grounding_chunk_indices.head?.bind (fun chunk_idx =>
        (metadata.grounding_chunks.get? chunk_idx).bind (fun chunk =>
          chunk.web.map (fun web =>
            InlineCitation.mk web.uri web.title support.segment.text
              (byte_offset_to_char_offset response_text support.segment.end_index)))))

/-- The Gemini cumulative-text diffing step, as inlined at `llm.rs` lines
530-537 and 694-700 and `discovery.rs` lines 588-595: if the incoming value
starts with the tracked value emit only the added suffix, otherwise clear the
tracking and emit the incoming value in full; either way the tracked value
becomes the incoming value.  Returns `(emitted_text, new_tracked_value)`. -/
def gemini_diff_step (accumulated_text t : List Char) : List Char × List Char :=
  if accumulated_text.isPrefixOf t then (t.drop accumulated_text.length, t)
  else (t, t)

/-- Run the diffing over a sequence of cumulative values, collecting the
non-empty emitted outputs (the loops emit a delta only when the diff is
non-empty). -/
def gemini_diff_outputs (inputs : List (List Char)) : List (List Char) :=
  (inputs.foldl (fun acc t =>
    let r := gemini_diff_step acc.1 t
    (r.2, if r.1 = [] then acc.2 else acc.2 ++ [r.1])) ([], [])).2

/-- C4: the Gemini cumulative-text diffing maps `["Hi", "Hi there",
"Hi there!"]` to the emitted outputs `["Hi", " there", "!"]` and `["Hi",
"Bye"]` to `["Hi", "Bye"]` (full reset on the non-prefix continuation); the
reset case is total — also when the new value is shorter than the tracked
value, as in `["Hi there", "Hi"]` — and the tracked value always becomes the
incoming value. -/
theorem gemini_cumulative_diffing :
    gemini_diff_outputs ["Hi".data, "Hi there".data, "Hi there!".data] =
      ["Hi".data, " there".data, "!".data] ∧
    gemini_diff_outputs ["Hi".data, "Bye".data] = ["Hi".data, "Bye".data] ∧
    gemini_diff_outputs ["Hi there".data, "Hi".data] = ["Hi there".data, "Hi".data] ∧
    ∀ accumulated t : List Char, (gemini_diff_step accumulated t).2 = t := by
  refine ⟨by decide, by decide, by decide, fun accumulated t => ?_⟩
  unfold gemini_diff_step
  split <;> rfl

theorem utf8Length_nil : utf8Length ([] : List Char) = 0 := rfl

theorem utf8Length_cons (c : Char) (l : List Char) :
    utf8Length (c :: l) = c.utf8Size + utf8Length l := rfl

/-- The character count of a text up to a byte offset, clamped to the text's
byte length, written from the specification's words: the number of characters
of the text that lie entirely within the first `byte_offset` bytes. -/
def spec_char_offset (text : List Char) (byte_offset : Nat) : Nat :=
  ((List.range text.length).filter
    (fun i => decide (utf8Length (text.take (i + 1)) ≤ min byte_offset (utf8Length text)))).length

/-- The implementation's byte-to-character offset conversion computes the
specification's character count, for every byte offset. -/
theorem byte_offset_to_char_offset_eq_spec :
    ∀ (text : List Char) (n : Nat),
      byte_offset_to_char_offset text n = spec_char_offset text n := by
  intro text
  induction text with
  | nil => intro n; rfl
  | cons c rest ih =>
    intro n
    unfold byte_offset_to_char_offset spec_char_offset
    simp only [List.length_cons, List.range_succ_eq_map, List.filter_cons]
    have hlen : utf8Length (c :: rest) = c.utf8Size + utf8Length rest := utf8Length_cons c rest
    by_cases hc : c.utf8Size ≤ min n (utf8Length (c :: rest))
    · have hP0 : decide (utf8Length ((c :: rest).take (0 + 1)) ≤
          min n (utf8Length (c :: rest))) = true := by
        simp only [List.take_succ_cons, List.take_zero, utf8Length_cons, utf8Length_nil,
          decide_eq_true_eq]
        omega
      rw [hP0]
      simp only [utf8TakeBytes, if_pos hc, List.length_cons, List.filter_map,
        List.length_map]
      have hmin : min n (utf8Length (c :: rest)) - c.utf8Size =
          min (n - c.utf8Size) (utf8Length rest) := by
        omega
      have hrest := ih (n - c.utf8Size)
      unfold byte_offset_to_char_offset spec_char_offset at hrest
      rw [hmin, hrest]
      congr 1
      rw [List.length_map]
      refine congrArg List.length ?_
      apply List.filter_congr
      intro i _
      simp only [Function.comp_apply, Nat.succ_eq_add_one, List.take_succ_cons,
        utf8Length_cons, decide_eq_decide]
      omega
    · have hP0 : decide (utf8Length ((c :: rest).take (0 + 1)) ≤
          min n (utf8Length (c :: rest))) = false := by
        simp only [List.take_succ_cons, List.take_zero, utf8Length_cons, utf8Length_nil,
          decide_eq_false_iff_not]
        omega
      rw [hP0]
      simp only [utf8TakeBytes, if_neg hc, List.length_nil, List.filter_map, List.length_map]
      have hall : ((List.range rest.length).filter
          ((fun i => decide (utf8Length ((c :: rest).take (i + 1)) ≤
            min n (utf8Length (c :: rest)))) ∘ Nat.succ)) = [] := by
        rw [List.filter_eq_nil_iff]
        intro i _
        simp only [Function.comp_apply, Nat.succ_eq_add_one, List.take_succ_cons,
          utf8Length_cons, decide_eq_true_eq]
        have hmono : 0 ≤ utf8Length (rest.take (i + 1)) := Nat.zero_le _
        omega
      rw [hall]
      rfl

/-- The segment byte offsets named by the grounding supports all fall on
character boundaries of the text (or beyond its end).  Rust's
`text[..byte_offset]` slicing is only defined in this case. -/
def supports_boundaries_ok (metadata : GroundingInfo) (text : List Char) : Bool :=
  metadata.grounding_supports.all (fun s => is_char_boundary text s.segment.end_index)

/-- The claim's description of the Gemini citation placement, written from the
specification's words: with grounding supports present, each citation is
anchored at the character count of the response text up to the support
segment's `end_index` byte offset (clamped); with supports absent, every web
grounding source is placed at the total character count of the text. -/
def spec_extract_inline_citations (metadata : GroundingInfo)
    (response_text : List Char) : List InlineCitation :=
  if metadata.grounding_supports = [] then
    metadata.grounding_chunks.filterMap (fun chunk =>
      chunk.web.map (fun web =>
        InlineCitation.mk web.uri web.title [] response_text.length))
  else
    metadata.grounding_supports.filterMap (fun support =>
      support.grounding_chunk_indices.head?.bind (fun chunk_idx =>
        (metadata.grounding_chunks.get? chunk_idx).bind (fun chunk =>
          chunk.web.map (fun web =>
            InlineCitation.mk web.uri web.title support.segment.text
              (spec_char_offset response_text support.segment.end_index)))))

/-- C7: for every Gemini grounding metadata and accumulated response text
(with the supports' byte offsets on character boundaries, the only case where
the source's slicing is defined), the emitted inline citations are exactly
those the specification describes: offsets are character counts — not byte
counts — up to each segment's `end_index` (clamped), and with supports absent
every grounding source is placed at the text's total character count. -/
theorem gemini_citation_offsets (metadata : GroundingInfo) (text : List Char)
    (_h : supports_boundaries_ok metadata text = true) :
    extract_inline_citations_from_grounding metadata text =
      spec_extract_inline_citations metadata text := by
  unfold extract_inline_citations_from_grounding spec_extract_inline_citations
  simp only [byte_offset_to_char_offset_eq_spec]

def c7_metadata : GroundingInfo :=
  GroundingInfo.mk [] [GroundingChunk.mk (some (WebChunk.mk "u".data "t".data))]
    [GroundingSupport.mk (GroundingSegment.mk 0 1 "a".data) [0]]

/-- Witness for C7 at a concrete metadata and text. -/
theorem gemini_citation_offsets_witness :
    supports_boundaries_ok c7_metadata "ab".data = true ∧
    extract_inline_citations_from_grounding c7_metadata "ab".data =
      spec_extract_inline_citations c7_metadata "ab".data :=
  ⟨by decide, gemini_citation_offsets c7_metadata "ab".data (by decide)⟩

/-!
Turn orchestrator (`llm.rs`): UI events, per-provider accumulation state, and
the decode loop racing stream chunks against cancellation.
-/

/-- Outward UI events emitted by a turn.  `delta` and `citations` are the two
payload shapes of the `chat-stream-delta` event (the source sends a
`StreamDelta` carrying either text or inline citations); `transcription` is
the `voice-transcription` event; `done` is `chat-stream-done`; `cancelled` is
`chat-stream-cancelled`.  A provider error produces no event: the command
returns an `Err` instead. -/
inductive Ev where
  | delta (text : List Char)
  | citations (cs : List InlineCitation)
  | transcription (text : List Char)
  | done
  | cancelled
deriving DecidableEq

def isTerminalEv : Ev → Bool
  | Ev.done => true
  | Ev.cancelled => true
  | _ => false

def isDoneEv : Ev → Bool
  | Ev.done => true
  | _ => false

/-- How a turn's processing of a frame can end it early: `finished` models the
`emit done; return Ok` paths, `failed` the `return Err(message)` paths. -/
inductive TurnStop where
  | finished : TurnStop
  | failed (message : List Char) : TurnStop

/-- Result of processing a piece of input: either continue with new state, or
stop the turn.  Both carry the events emitted while processing. -/
inductive StepRes (σ : Type) where
  | cont (evs : List Ev) (st : σ) : StepRes σ
  | stop (evs : List Ev) (o : TurnStop) : StepRes σ

/-- `line.strip_prefix("data: ")`. -/
def stripDataTag (line : List Char) : Option (List Char) :=
  if "data: ".data.isPrefixOf line then some (line.drop 6) else none

def stripOneCR (l : List Char) : List Char :=
  match l.getLast? with
  | some c => if c = '\r' then l.dropLast else l
  | none => l

/-- Rust `str::lines`: split at `'\n'`, dropping one `'\r'` immediately before
each `'\n'`; a final fragment without a line ending is kept as written. -/
def rustLines (s : List Char) : List (List Char) :=
  let r := splitFramesOn ['\n'] s
  r.1.map stripOneCR ++ (if r.2 = [] then [] else [r.2])

/-- Process a list of lines: lines without the `data: ` tag are skipped; each
data payload is handled, stopping early (and discarding the remaining lines)
if the handler stops the turn. -/
def processDataLines {σ : Type} (handle : σ → List Char → StepRes σ) :
    σ → List (List Char) → StepRes σ
  | st, [] => StepRes.cont [] st
  | st, line :: rest =>
    match stripDataTag line with
    | none => processDataLines handle st rest
    | some d =>
      match handle st d with
      | StepRes.stop evs o => StepRes.stop evs o
      | StepRes.cont evs st2 =>
        match processDataLines handle st2 rest with
        | StepRes.cont evs2 st3 => StepRes.cont (evs ++ evs2) st3
        | StepRes.stop evs2 o => StepRes.stop (evs ++ evs2) o

/-- Process a list of SSE frames, each frame contributing its `data: ` lines,
stopping early if any line stops the turn. -/
def processFrames {σ : Type} (handle : σ → List Char → StepRes σ) :
    σ → List (List Char) → StepRes σ
  | st, [] => StepRes.cont [] st
  | st, f :: fs =>
    match processDataLines handle st (rustLines f) with
    | StepRes.stop evs o => StepRes.stop evs o
    | StepRes.cont evs st2 =>
      match processFrames handle st2 fs with
      | StepRes.cont evs2 st3 => StepRes.cont (evs ++ evs2) st3
      | StepRes.stop evs2 o => StepRes.stop (evs ++ evs2) o

/-- Per-turn accumulation state of `send_chat_message_anthropic` (`llm.rs`
lines 185-188). -/
structure AnthropicTurnState where
  buffer : List Char
  full_response : List Char
  current_block_type : Option (List Char)
  previous_block_type : Option (List Char)
deriving DecidableEq

def anthropic_chat_initial : AnthropicTurnState :=
  AnthropicTurnState.mk [] [] none none

/-- The Anthropic event handling of `send_chat_message_anthropic` (`llm.rs`
lines 211-287): `Done`/`MessageStop` emit the done event and end the turn; a
`content_block_start` of type `text` after a thinking/search/tool block
inserts a paragraph break (appended to the accumulated response and emitted);
a delta's text is appended and emitted; a delta's citation is emitted as an
inline citation anchored at `full_response.len()` — the UTF-8 byte length of
the accumulated response; `content_block_stop` shifts the block-type
bookkeeping. -/
def anthropic_handle_event (st : AnthropicTurnState) (ev : AnthropicStreamEvent) :
    StepRes AnthropicTurnState :=
  match ev with
  | AnthropicStreamEvent.Done => StepRes.stop [Ev.done] TurnStop.finished
  | AnthropicStreamEvent.ContentBlockStart block_type _ =>
    let st1 := { st with current_block_type := some block_type }
    if block_type = "text".data then
      match st1.previous_block_type with
      | some prev =>
        if prev = "thinking".data ∨ prev = "server_tool_use".data ∨
            prev = "web_search_tool_result".data then
          StepRes.cont [Ev.delta "\n\n".data]
            { st1 with full_response := st1.full_response ++ "\n\n".data }
        else StepRes.cont [] st1
      | none => StepRes.cont [] st1
    else StepRes.cont [] st1
  | AnthropicStreamEvent.ContentBlockDelta text _thinking citation =>
    let r :=
      match text with
      | some t => ([Ev.delta t], { st with full_response := st.full_response ++ t })
      | none => (([] : List Ev), st)
    let evs2 :=
      match citation with
      | some c =>
        [Ev.citations [InlineCitation.mk c.url c.title c.cited_text
          (utf8Length r.2.full_response)]]
      | none => []
    StepRes.cont (r.1 ++ evs2) r.2
  | AnthropicStreamEvent.ContentBlockStop =>
    StepRes.cont []
      { st with previous_block_type := st.current_block_type, current_block_type := none }
  | AnthropicStreamEvent.MessageStop => StepRes.stop [Ev.done] TurnStop.finished
  | AnthropicStreamEvent.Unknown => StepRes.cont [] st

def anthropic_handle_data (st : AnthropicTurnState) (d : List Char) :
    StepRes AnthropicTurnState :=
  anthropic_handle_event st (anthropic_parse_sse_event d)

/-- One chunk of the Anthropic loop: append to the buffer, split off complete
`"\n\n"`-delimited frames (the tail stays buffered), and process each frame's
lines. -/
def anthropic_process_chunk (st : AnthropicTurnState) (bytes : List Char) :
    StepRes AnthropicTurnState :=
  let r := sse_split_frames (st.buffer ++ bytes)
  processFrames anthropic_handle_data { st with buffer := r.2 } r.1

/-- Per-turn accumulation state of `send_chat_message_gemini` (`llm.rs` lines
500-502). -/
structure GeminiTurnState where
  buffer : List Char
  full_response : List Char
  accumulated_text : List Char
deriving DecidableEq

def gemini_chat_initial : GeminiTurnState :=
  GeminiTurnState.mk [] [] []

/-- The Gemini event handling of `send_chat_message_gemini` (`llm.rs` lines
527-585): cumulative text deltas are diffed against the tracked value and the
non-empty suffix is appended and emitted; thinking is discarded; grounding
metadata is converted to inline citations against the accumulated response
and emitted when non-empty; `ResponseComplete` emits done and ends the turn;
a provider error ends the turn with `Err`. -/
def gemini_handle_event (st : GeminiTurnState) (ev : GeminiStreamEvent) :
    StepRes GeminiTurnState :=
  match ev with
  | GeminiStreamEvent.TextDelta t =>
    let r := gemini_diff_step st.accumulated_text t
    if r.1 = [] then StepRes.cont [] { st with accumulated_text := t }
    else
      StepRes.cont [Ev.delta r.1]
        { st with accumulated_text := t, full_response := st.full_response ++ r.1 }
  | GeminiStreamEvent.ThinkingDelta => StepRes.cont [] st
  | GeminiStreamEvent.GroundingMetadata metadata =>
    let cs := extract_inline_citations_from_grounding metadata st.full_response
    if cs = [] then StepRes.cont [] st else StepRes.cont [Ev.citations cs] st
  | GeminiStreamEvent.ResponseComplete => StepRes.stop [Ev.done] TurnStop.finished
  | GeminiStreamEvent.Error m => StepRes.stop [] (TurnStop.failed m)
  | GeminiStreamEvent.Unknown => StepRes.cont [] st

def gemini_handle_data (st : GeminiTurnState) (d : List Char) : StepRes GeminiTurnState :=
  gemini_handle_event st (gemini_parse_sse_event d)

/-- One chunk of the Gemini loop: append to the buffer, split off complete
lines (trailing `'\r'` stripped, the tail stays buffered), and process each
line's data payload. -/
def gemini_process_chunk (st : GeminiTurnState) (bytes : List Char) :
    StepRes GeminiTurnState :=
  let r := gemini_split_lines (st.buffer ++ bytes)
  processDataLines gemini_handle_data { st with buffer := r.2 } r.1

/-- `extract_transcription` (`llm.rs` lines 791-804): with both tags present
and the end tag after the start tag, the enclosed text, trimmed. -/
def extract_transcription (text : List Char) : Option (List Char) :=
  (findPattern "[TRANSCRIPTION]".data text).bind fun start_idx =>
    (findPattern "[/TRANSCRIPTION]".data text).bind fun end_idx =>
      if start_idx < end_idx then
        some (trimWs ((text.drop (start_idx + 15)).take (end_idx - (start_idx + 15))))
      else none

/-- Per-turn accumulation state of `send_voice_message` (`llm.rs` lines
669-672). -/
structure VoiceTurnState where
  buffer : List Char
  full_response : List Char
  accumulated_text : List Char
  transcription_emitted : Bool
deriving DecidableEq

def voice_chat_initial : VoiceTurnState :=
  VoiceTurnState.mk [] [] [] false

/-- The voice-turn event handling of `send_voice_message` (`llm.rs` lines
691-773): like the Gemini chat handler, except that before the transcription
has been emitted no delta is emitted; once the accumulated response contains
both transcription tags, the enclosed text fires the transcription event
exactly once and the text after the closing tag (leading whitespace trimmed)
is emitted as one delta; thereafter diffs are emitted as ordinary deltas. -/
def voice_handle_event (st : VoiceTurnState) (ev : GeminiStreamEvent) :
    StepRes VoiceTurnState :=
  match ev with
  | GeminiStreamEvent.TextDelta t =>
    let r := gemini_diff_step st.accumulated_text t
    if r.1 = [] then StepRes.cont [] { st with accumulated_text := t }
    else
      let full2 := st.full_response ++ r.1
      let st2 := { st with accumulated_text := t, full_response := full2 }
      if !st.transcription_emitted then
        match extract_transcription full2 with
        | some tr =>
          let tailEvs :=
            match findPattern "[/TRANSCRIPTION]".data full2 with
            | some end_idx =>
              let clean_start := trimStartWs (full2.drop (end_idx + 16))
              if clean_start = [] then [] else [Ev.delta clean_start]
            | none => []
          StepRes.cont (Ev.transcription tr :: tailEvs)
            { st2 with transcription_emitted := true }
        | none => StepRes.cont [] st2
      else StepRes.cont [Ev.delta r.1] st2
  | GeminiStreamEvent.ThinkingDelta => StepRes.cont [] st
  | GeminiStreamEvent.GroundingMetadata metadata =>
    let cs := extract_inline_citations_from_grounding metadata st.full_response
    if cs = [] then StepRes.cont [] st else StepRes.cont [Ev.citations cs] st
  | GeminiStreamEvent.ResponseComplete => StepRes.stop [Ev.done] TurnStop.finished
  | GeminiStreamEvent.Error m => StepRes.stop [] (TurnStop.failed m)
  | GeminiStreamEvent.Unknown => StepRes.cont [] st

def voice_handle_data (st : VoiceTurnState) (d : List Char) : StepRes VoiceTurnState :=
  voice_handle_event st (gemini_parse_sse_event d)

def voice_process_chunk (st : VoiceTurnState) (bytes : List Char) : StepRes VoiceTurnState :=
  let r := gemini_split_lines (st.buffer ++ bytes)
  processDataLines voice_handle_data { st with buffer := r.2 } r.1

/-- The decode loop shared by all turn commands (`llm.rs` lines 190-302,
504-599, 674-788): each iteration races the cancellation token against the
next chunk.  `cancel_at = some k` simulates the cancellation branch winning
the `select!` at iteration `k`; `none` simulates it never firing.  A
cancellation win emits the cancelled event and returns `Ok`; stream end (the
chunk list exhausted) emits the done event and returns `Ok` (silent close is
an implicit done); a transport error chunk returns `Err` without an event;
otherwise the chunk is processed, possibly ending the turn early. -/
def runTurnLoop {σ : Type} (process_chunk : σ → List Char → StepRes σ) :
    σ → Option Nat → List (Except (List Char) (List Char)) →
      List Ev × Except (List Char) Unit
  | st, ca, chunks =>
    if ca = some 0 then ([Ev.cancelled], Except.ok ())
    else
      match chunks with
      | [] => ([Ev.done], Except.ok ())
      | Except.error e :: _ => ([], Except.error e)
      | Except.ok bytes :: rest =>
        match process_chunk st bytes with
        | StepRes.stop evs TurnStop.finished => (evs, Except.ok ())
        | StepRes.stop evs (TurnStop.failed m) => (evs, Except.error m)
        | StepRes.cont evs st2 =>
          let r := runTurnLoop process_chunk st2 (ca.map (· - 1)) rest
          (evs ++ r.1, r.2)

/-- A full simulated Anthropic chat turn. -/
def runAnthropicChatTurn (cancel_at : Option Nat)
    (chunks : List (Except (List Char) (List Char))) :
    List Ev × Except (List Char) Unit :=
  runTurnLoop anthropic_process_chunk anthropic_chat_initial cancel_at chunks

/-- A full simulated Gemini chat turn. -/
def runGeminiChatTurn (cancel_at : Option Nat)
    (chunks : List (Except (List Char) (List Char))) :
    List Ev × Except (List Char) Unit :=
  runTurnLoop gemini_process_chunk gemini_chat_initial cancel_at chunks

/-- A full simulated voice turn. -/
def runVoiceTurn (cancel_at : Option Nat)
    (chunks : List (Except (List Char) (List Char))) :
    List Ev × Except (List Char) Unit :=
  runTurnLoop voice_process_chunk voice_chat_initial cancel_at chunks

def noTerminalEvs (evs : List Ev) : Bool :=
  evs.all (fun e => !isTerminalEv e)

/-- The event list ends with a terminal event and contains no other
terminal event. -/
def endsInSingleTerminal (evs : List Ev) : Bool :=
  match evs.reverse with
  | t :: front => isTerminalEv t && front.all (fun e => !isTerminalEv e)
  | [] => false

/-- Exactly one terminal outcome, last: a turn returning `Ok` has emitted
exactly one terminal event (`done` or `cancelled`) as its last event; a turn
returning `Err` has emitted no terminal event (the error return itself is the
terminal outcome, and nothing is emitted after a return). -/
def exclusiveOutcome (r : List Ev × Except (List Char) Unit) : Bool :=
  match r.2 with
  | Except.ok _ => endsInSingleTerminal r.1
  | Except.error _ => noTerminalEvs r.1

/-- Invariant of a processing step: a continuing step emits no terminal
event; a step that finishes the turn emits exactly one final `done`; a step
that fails the turn emits no terminal event. -/
def StepInv {σ : Type} : StepRes σ → Prop
  | StepRes.cont evs _ => noTerminalEvs evs = true
  | StepRes.stop evs TurnStop.finished =>
    ∃ front, evs = front ++ [Ev.done] ∧ noTerminalEvs front = true
  | StepRes.stop evs (TurnStop.failed _) => noTerminalEvs evs = true

theorem noTerminalEvs_append {a b : List Ev} (ha : noTerminalEvs a = true)
    (hb : noTerminalEvs b = true) : noTerminalEvs (a ++ b) = true := by
  simp only [noTerminalEvs, List.all_append, Bool.and_eq_true]
  exact ⟨ha, hb⟩

theorem endsInSingleTerminal_done {front : List Ev} (hf : noTerminalEvs front = true) :
    endsInSingleTerminal (front ++ [Ev.done]) = true := by
  simp only [endsInSingleTerminal, List.reverse_append, List.reverse_cons,
    List.reverse_nil, List.nil_append, List.singleton_append]
  simp only [noTerminalEvs] at hf
  show (isTerminalEv Ev.done && front.reverse.all fun e => !isTerminalEv e) = true
  rw [List.all_reverse, hf]
  rfl

theorem endsInSingleTerminal_append {a b : List Ev} (ha : noTerminalEvs a = true)
    (hb : endsInSingleTerminal b = true) : endsInSingleTerminal (a ++ b) = true := by
  simp only [endsInSingleTerminal] at hb ⊢
  cases hrev : b.reverse with
  | nil => rw [hrev] at hb; cases hb
  | cons t f =>
    rw [hrev] at hb
    simp only [Bool.and_eq_true] at hb
    rw [List.reverse_append, hrev]
    simp only [List.cons_append, Bool.and_eq_true]
    refine ⟨hb.1, ?_⟩
    simp only [List.all_append, Bool.and_eq_true]
    refine ⟨hb.2, ?_⟩
    simp only [noTerminalEvs] at ha
    simpa [List.all_reverse] using ha

theorem stepInv_anthropic_handle (st : AnthropicTurnState) (ev : AnthropicStreamEvent) :
    StepInv (anthropic_handle_event st ev) := by
  cases ev with
  | Done => exact ⟨[], rfl, rfl⟩
  | MessageStop => exact ⟨[], rfl, rfl⟩
  | ContentBlockStart block_type content_block =>
    simp only [anthropic_handle_event]
    split
    · split
      · split <;> simp [StepInv, noTerminalEvs, isTerminalEv]
      · simp [StepInv, noTerminalEvs]
    · simp [StepInv, noTerminalEvs]
  | ContentBlockDelta text thinking citation =>
    simp only [anthropic_handle_event]
    cases text <;> cases citation <;> simp [StepInv, noTerminalEvs, isTerminalEv]
  | ContentBlockStop => simp [anthropic_handle_event, StepInv, noTerminalEvs]
  | Unknown => simp [anthropic_handle_event, StepInv, noTerminalEvs]

theorem stepInv_anthropic_data (st : AnthropicTurnState) (d : List Char) :
    StepInv (anthropic_handle_data st d) :=
  stepInv_anthropic_handle st (anthropic_parse_sse_event d)

theorem stepInv_gemini_handle (st : GeminiTurnState) (ev : GeminiStreamEvent) :
    StepInv (gemini_handle_event st ev) := by
  cases ev with
  | TextDelta t => simp only [gemini_handle_event]; split <;> simp [StepInv, noTerminalEvs, isTerminalEv]
  | ThinkingDelta => simp [gemini_handle_event, StepInv, noTerminalEvs]
  | GroundingMetadata metadata =>
    simp only [gemini_handle_event]
    split <;> simp [StepInv, noTerminalEvs, isTerminalEv]
  | ResponseComplete => exact ⟨[], rfl, rfl⟩
  | Error m => simp [gemini_handle_event, StepInv, noTerminalEvs]
  | Unknown => simp [gemini_handle_event, StepInv, noTerminalEvs]

theorem stepInv_gemini_data (st : GeminiTurnState) (d : List Char) :
    StepInv (gemini_handle_data st d) :=
  stepInv_gemini_handle st (gemini_parse_sse_event d)

theorem stepInv_processDataLines {σ : Type} (handle : σ → List Char → StepRes σ)
    (hh : ∀ st d, StepInv (handle st d)) :
    ∀ (lines : List (List Char)) (st : σ), StepInv (processDataLines handle st lines) := by
  intro lines
  induction lines with
  | nil => intro st; simp [processDataLines, StepInv, noTerminalEvs]
  | cons line rest ih =>
    intro st
    cases hs : stripDataTag line with
    | none => simpa [processDataLines, hs] using ih st
    | some d =>
      have h1 := hh st d
      cases hr : handle st d with
      | stop evs o =>
        rw [hr] at h1
        simpa [processDataLines, hs, hr] using h1
      | cont evs st2 =>
        rw [hr] at h1
        have h2 := ih st2
        cases hr2 : processDataLines handle st2 rest with
        | cont evs2 st3 =>
          rw [hr2] at h2
          simp only [processDataLines, hs, hr, hr2]
          exact noTerminalEvs_append h1 h2
        | stop evs2 o =>
          rw [hr2] at h2
          cases o with
          | finished =>
            obtain ⟨front, rfl, hf⟩ := h2
            simp only [processDataLines, hs, hr, hr2]
            exact ⟨evs ++ front, by rw [List.append_assoc], noTerminalEvs_append h1 hf⟩
          | failed m =>
            simp only [processDataLines, hs, hr, hr2]
            exact noTerminalEvs_append h1 h2

theorem stepInv_processFrames {σ : Type} (handle : σ → List Char → StepRes σ)
    (hh : ∀ st d, StepInv (handle st d)) :
    ∀ (frames : List (List Char)) (st : σ), StepInv (processFrames handle st frames) := by
  intro frames
  induction frames with
  | nil => intro st; simp [processFrames, StepInv, noTerminalEvs]
  | cons f fs ih =>
    intro st
    have h1 := stepInv_processDataLines handle hh (rustLines f) st
    cases hr : processDataLines handle st (rustLines f) with
    | stop evs o =>
      rw [hr] at h1
      simpa [processFrames, hr] using h1
    | cont evs st2 =>
      rw [hr] at h1
      have h2 := ih st2
      cases hr2 : processFrames handle st2 fs with
      | cont evs2 st3 =>
        rw [hr2] at h2
        simp only [processFrames, hr, hr2]
        exact noTerminalEvs_append h1 h2
      | stop evs2 o =>
        rw [hr2] at h2
        cases o with
        | finished =>
          obtain ⟨front, rfl, hf⟩ := h2
          simp only [processFrames, hr, hr2]
          exact ⟨evs ++ front, by rw [List.append_assoc], noTerminalEvs_append h1 hf⟩
        | failed m =>
          simp only [processFrames, hr, hr2]
          exact noTerminalEvs_append h1 h2

theorem stepInv_anthropic_chunk (st : AnthropicTurnState) (bytes : List Char) :
    StepInv (anthropic_process_chunk st bytes) :=
  stepInv_processFrames anthropic_handle_data stepInv_anthropic_data _ _

theorem stepInv_gemini_chunk (st : GeminiTurnState) (bytes : List Char) :
    StepInv (gemini_process_chunk st bytes) :=
  stepInv_processDataLines gemini_handle_data stepInv_gemini_data _ _

/-- Generic terminal exclusivity of the decode loop, given that chunk
processing satisfies the step invariant. -/
theorem runTurnLoop_exclusive {σ : Type} (pc : σ → List Char → StepRes σ)
    (hpc : ∀ st bytes, StepInv (pc st bytes)) :
    ∀ (chunks : List (Except (List Char) (List Char))) (st : σ) (ca : Option Nat),
      exclusiveOutcome (runTurnLoop pc st ca chunks) = true := by
  intro chunks
  induction chunks with
  | nil =>
    intro st ca
    by_cases hca : ca = some 0 <;>
      simp [runTurnLoop, hca, exclusiveOutcome, endsInSingleTerminal, isTerminalEv]
  | cons chunk rest ih =>
    intro st ca
    by_cases hca : ca = some 0
    · subst hca
      cases chunk <;>
        simp [runTurnLoop, exclusiveOutcome, endsInSingleTerminal, isTerminalEv]
    · cases chunk with
      | error e => simp [runTurnLoop, hca, exclusiveOutcome, noTerminalEvs]
      | ok bytes =>
        have h1 := hpc st bytes
        cases hr : pc st bytes with
        | stop evs o =>
          rw [hr] at h1
          cases o with
          | finished =>
            obtain ⟨front, rfl, hf⟩ := h1
            simp only [runTurnLoop, hca, if_neg hca, hr]
            simpa [exclusiveOutcome] using endsInSingleTerminal_done hf
          | failed m =>
            simp only [runTurnLoop, hca, if_neg hca, hr]
            simpa [exclusiveOutcome] using h1
        | cont evs st2 =>
          rw [hr] at h1
          have h2 := ih st2 (ca.map (· - 1))
          simp only [runTurnLoop, if_neg hca, hr]
          cases hx : runTurnLoop pc st2 (ca.map (· - 1)) rest with
          | mk evl res =>
            rw [hx] at h2
            cases res with
            | ok u =>
              simp only [exclusiveOutcome] at h2 ⊢
              exact endsInSingleTerminal_append h1 h2
            | error m =>
              simp only [exclusiveOutcome] at h2 ⊢
              exact noTerminalEvs_append h1 h2

/-- Whether the whole chunk list is consumed without any early stop: every
chunk arrives intact and no frame ends the turn — the stream then closes
silently. -/
def consumesAllChunks {σ : Type} (pc : σ → List Char → StepRes σ) :
    σ → List (Except (List Char) (List Char)) → Bool
  | _, [] => true
  | st, chunk :: rest =>
    match chunk with
    | Except.error _ => false
    | Except.ok bytes =>
      match pc st bytes with
      | StepRes.cont _ st2 => consumesAllChunks pc st2 rest
      | StepRes.stop _ _ => false

/-- The turn returned `Ok` and its last emitted event is `done`. -/
def lastEventIsDone (r : List Ev × Except (List Char) Unit) : Bool :=
  match r.2 with
  | Except.ok _ => r.1.reverse.head? == some Ev.done
  | Except.error _ => false

/-- Generic silent-close behavior of the decode loop: if the chunk list is
consumed without any early stop and cancellation never fires, the turn emits
the done event last and returns success. -/
theorem runTurnLoop_silent_close {σ : Type} (pc : σ → List Char → StepRes σ) :
    ∀ (chunks : List (Except (List Char) (List Char))) (st : σ),
      consumesAllChunks pc st chunks = true →
        lastEventIsDone (runTurnLoop pc st none chunks) = true := by
  intro chunks
  induction chunks with
  | nil => intro st _; simp [runTurnLoop, lastEventIsDone]
  | cons chunk rest ih =>
    intro st hc
    cases chunk with
    | error e => simp [consumesAllChunks] at hc
    | ok bytes =>
      cases hr : pc st bytes with
      | stop evs o => simp [consumesAllChunks, hr] at hc
      | cont evs st2 =>
        simp only [consumesAllChunks, hr] at hc
        have h2 := ih st2 hc
        simp only [runTurnLoop, Option.map_none', hr]
        cases hx : runTurnLoop pc st2 none rest with
        | mk evl res =>
          rw [hx] at h2
          cases res with
          | error m => simp [lastEventIsDone] at h2
          | ok u =>
            simp only [lastEventIsDone] at h2 ⊢
            cases hrev : evl.reverse with
            | nil => rw [hrev] at h2; simp at h2
            | cons hd tl =>
              rw [hrev] at h2
              simp only [List.head?_cons, beq_iff_eq, Option.some.injEq] at h2
              subst h2
              simp [List.reverse_append, hrev]

/-- C3: for every simulated cancellation schedule and stream of chunk
results, each chat turn (Anthropic and Gemini) produces exactly one terminal
outcome among done, error and cancelled; it is the last thing the turn does —
an `Ok` return has exactly one terminal event (`done` or `cancelled`) as the
last event emitted, an `Err` return (the error outcome) emits no terminal
event and nothing after it.  Moreover a silent connection close — the chunk
list ending without any terminal frame or transport error — is an implicit
done: the turn emits the done event last and returns success. -/
theorem stream_terminal_exclusivity :
    (∀ (cancel_at : Option Nat) (chunks : List (Except (List Char) (List Char))),
       exclusiveOutcome (runAnthropicChatTurn cancel_at chunks) = true) ∧
    (∀ (cancel_at : Option Nat) (chunks : List (Except (List Char) (List Char))),
       exclusiveOutcome (runGeminiChatTurn cancel_at chunks) = true) ∧
    (∀ chunks : List (Except (List Char) (List Char)),
       consumesAllChunks anthropic_process_chunk anthropic_chat_initial chunks = true →
         lastEventIsDone (runAnthropicChatTurn none chunks) = true) ∧
    (∀ chunks : List (Except (List Char) (List Char)),
       consumesAllChunks gemini_process_chunk gemini_chat_initial chunks = true →
         lastEventIsDone (runGeminiChatTurn none chunks) = true) := by
  refine ⟨fun ca chunks => ?_, fun ca chunks => ?_, fun chunks hc => ?_, fun chunks hc => ?_⟩
  · exact runTurnLoop_exclusive _ stepInv_anthropic_chunk chunks _ ca
  · exact runTurnLoop_exclusive _ stepInv_gemini_chunk chunks _ ca
  · exact runTurnLoop_silent_close _ chunks _ hc
  · exact runTurnLoop_silent_close _ chunks _ hc

/-- An Anthropic text-delta frame used to witness the silent-close clause on a
non-trivial stream. -/
def c3_witness_chunk : List Char :=
  "data: \x7b\"type\":\"content_block_delta\",\"delta\":\x7b\"type\":\"text_delta\",\"text\":\"Hi\"\x7d\x7d\n\n".data

/-- Witness for C3: a concrete stream (one text-delta frame, then silent
close) satisfies the silent-close hypotheses, and the conclusions hold. -/
theorem stream_terminal_exclusivity_witness :
    exclusiveOutcome (runAnthropicChatTurn none [Except.ok c3_witness_chunk]) = true ∧
    lastEventIsDone (runAnthropicChatTurn none [Except.ok c3_witness_chunk]) = true ∧
    lastEventIsDone (runGeminiChatTurn none []) = true :=
  ⟨stream_terminal_exclusivity.1 none [Except.ok c3_witness_chunk],
   stream_terminal_exclusivity.2.2.1 [Except.ok c3_witness_chunk] (by rfl),
   stream_terminal_exclusivity.2.2.2 [] (by rfl)⟩

/-- `cancel_chat_stream` (`llm.rs` lines 34-41): take whatever token occupies
the single slot and fire it; a no-op if the slot is empty.  Returns the new
slot contents (always empty) and whether a token was fired. -/
def cancel_chat_stream (slot : Option Unit) : Option Unit × Bool :=
  match slot with
  | some _ => (none, true)
  | none => (none, false)

/-- C8: cancellation taking effect before any frame arrives (the cancelled
branch of the `select!` winning the first iteration) yields exactly one
cancelled event, zero delta events, and an `Ok` return — for every stream,
on both chat providers; and `cancel_chat_stream` empties the single slot,
firing only if a token was present. -/
theorem cancellation_before_first_frame :
    cancel_chat_stream (some ()) = (none, true) ∧
    cancel_chat_stream none = (none, false) ∧
    (∀ chunks : List (Except (List Char) (List Char)),
       runAnthropicChatTurn (some 0) chunks = ([Ev.cancelled], Except.ok ())) ∧
    (∀ chunks : List (Except (List Char) (List Char)),
       runGeminiChatTurn (some 0) chunks = ([Ev.cancelled], Except.ok ())) := by
  refine ⟨rfl, rfl, fun chunks => ?_, fun chunks => ?_⟩
  · cases chunks with
    | nil => simp [runAnthropicChatTurn, runTurnLoop]
    | cons c rest => cases c <;> simp [runAnthropicChatTurn, runTurnLoop]
  · cases chunks with
    | nil => simp [runGeminiChatTurn, runTurnLoop]
    | cons c rest => cases c <;> simp [runGeminiChatTurn, runTurnLoop]

/-- The voice-turn stream of the claim: one Gemini frame whose cumulative
text is `[TRANSCRIPTION]hello[/TRANSCRIPTION]\n\nHi there`. -/
def c9_chunk : List Char :=
  "data: \x7b\"candidates\":[\x7b\"content\":\x7b\"parts\":[\x7b\"text\":\"[TRANSCRIPTION]hello[/TRANSCRIPTION]\\n\\nHi there\"\x7d]\x7d\x7d]\x7d\n".data

set_option maxRecDepth 100000 in
/-- C9: for a voice turn whose accumulated response text is
`[TRANSCRIPTION]hello[/TRANSCRIPTION]\n\nHi there`, the transcription event
fires exactly once with payload `hello` (the tag-enclosed text, trimmed), and
exactly one delta `Hi there` follows — only the text after the closing tag,
leading whitespace trimmed; the turn then completes with the done event. -/
theorem voice_transcription_extraction :
    runVoiceTurn none [Except.ok c9_chunk] =
      ([Ev.transcription "hello".data, Ev.delta "Hi there".data, Ev.done],
       Except.ok ()) ∧
    extract_transcription "[TRANSCRIPTION]hello[/TRANSCRIPTION]\n\nHi there".data =
      some "hello".data :=
  ⟨rfl, rfl⟩

/-- A stream whose accumulated text holds one non-ASCII character before a
citation arrives: a text delta `é` (1 character, 2 UTF-8 bytes), then a
citations delta. -/
def c6_chunk : List Char :=
  ("data: \x7b\"type\":\"content_block_delta\",\"delta\":\x7b\"type\":\"text_delta\",\"text\":\"é\"\x7d\x7d\n\n" ++
   "data: \x7b\"type\":\"content_block_delta\",\"delta\":\x7b\"type\":\"citations_delta\",\"citation\":\x7b\"url\":\"u\",\"title\":\"t\",\"cited_text\":\"c\"\x7d\x7d\x7d\n\n").data

set_option maxRecDepth 100000 in
/-- Counterexample to C6.  At the moment the citations delta is processed the
accumulated response text is `é` — character count 1 — but the emitted
citation carries `char_offset = 2`: the source anchors it at
`full_response.len()`, the UTF-8 byte length, not the character count the
claim asserts. -/
theorem citation_offset_counterexample :
    runAnthropicChatTurn none [Except.ok c6_chunk] =
      ([Ev.delta "é".data,
        Ev.citations [InlineCitation.mk "u".data "t".data "c".data 2],
        Ev.done],
       Except.ok ()) ∧
    "é".data.length = 1 ∧ utf8Length "é".data = 2 :=
  ⟨rfl, rfl, rfl⟩

/-- The Anthropic parser never yields a delta carrying both text and a
citation: a `citations_delta` has no text, any other delta has no
citation. -/
def anthropicDeltaPayloadOk : AnthropicStreamEvent → Prop
  | AnthropicStreamEvent.ContentBlockDelta text _ citation => text = none ∨ citation = none
  | _ => True

theorem anthropic_parse_citation_excludes_text :
    ∀ d : List Char, anthropicDeltaPayloadOk (anthropic_parse_sse_event d) := by
  intro d
  unfold anthropic_parse_sse_event
  split
  · trivial
  · split
    · trivial
    · dsimp only
      split
      · trivial
      · split
        · split
          · exact Or.inl rfl
          · exact Or.inr rfl
        · split
          · trivial
          · split <;> trivial

def citation_offsets_of (evs : List Ev) : List Nat :=
  evs.foldr (fun e acc =>
    match e with
    | Ev.citations cs => cs.map (fun c => c.char_offset) ++ acc
    | _ => acc) []

/-- Processing one data payload emits citations anchored exactly at the UTF-8
byte length of the response accumulated before the payload, and a payload
that emits a citation leaves the accumulated response unchanged. -/
def anthropic_citation_offset_ok (st : AnthropicTurnState) (d : List Char) : Prop :=
  match anthropic_handle_data st d with
  | StepRes.cont evs st2 =>
    (citation_offsets_of evs).all (fun o => o == utf8Length st.full_response) = true ∧
    (citation_offsets_of evs = [] ∨ st2.full_response = st.full_response)
  | StepRes.stop evs _ => citation_offsets_of evs = []

/-- C6 (amended): for every Anthropic stream payload and accumulation state,
every emitted inline citation carries `char_offset` equal to the UTF-8 byte
length (`full_response.len()`, equal to the character count only for ASCII
text) of the response accumulated strictly before any later-arriving delta;
the citation event itself appends no text to the accumulation. -/
theorem citation_offset_amended :
    ∀ (d : List Char) (st : AnthropicTurnState), anthropic_citation_offset_ok st d := by
  intro d st
  have hx := anthropic_parse_citation_excludes_text d
  unfold anthropic_citation_offset_ok anthropic_handle_data
  cases hev : anthropic_parse_sse_event d with
  | Done => simp [anthropic_handle_event, citation_offsets_of]
  | MessageStop => simp [anthropic_handle_event, citation_offsets_of]
  | ContentBlockStop => simp [anthropic_handle_event, citation_offsets_of]
  | Unknown => simp [anthropic_handle_event, citation_offsets_of]
  | ContentBlockStart bt cb =>
    simp only [anthropic_handle_event]
    split
    · rename_i evs st2 heq
      repeat' split at heq
      all_goals (cases heq; simp [citation_offsets_of])
    · rename_i evs o heq
      repeat' split at heq
      all_goals cases heq
  | ContentBlockDelta text thinking citation =>
    rw [hev] at hx
    simp only [anthropicDeltaPayloadOk] at hx
    cases text with
    | none =>
      cases citation with
      | none => simp [anthropic_handle_event, citation_offsets_of]
      | some c => simp [anthropic_handle_event, citation_offsets_of]
    | some t =>
      cases citation with
      | none => simp [anthropic_handle_event, citation_offsets_of]
      | some c =>
        rcases hx with h | h <;> exact Option.noConfusion h
